import Mathlib

/-!
DiskANN product-quantization scratch arena and lookup kernels.

A shallow embedding of `include/pq.h`:

* machine integers (`size_t`, `_u64`) are natural numbers, products are reduced
  modulo `2 ^ 64`;
* `float` is an abstract type `F` carrying the operations the header uses
  (`FloatOps`), so every statement holds for IEEE single precision in particular;
* a heap buffer is a list of cells, a cell being `none` while its contents are
  indeterminate and `some v` once a value has been stored;
* an access outside a buffer is a fault: fallible operations return `Option`.
-/

namespace diskann

/-! ## Constants of the header -/

/-- The macro `#define NUM_PQ_BITS 8`. -/
def NUM_PQ_BITS : Nat := 8

/-- The macro `#define NUM_PQ_CENTROIDS (1 << NUM_PQ_BITS)`. -/
def NUM_PQ_CENTROIDS : Nat := 1 <<< NUM_PQ_BITS

/-- The macro `#define MAX_PQ_CHUNKS 384`. -/
def MAX_PQ_CHUNKS : Nat := 384

/-- Number of values of a 64-bit unsigned integer. -/
def U64_SIZE : Nat := 2 ^ 64

/-- Product of two `_u64` / `size_t` values: unsigned 64-bit multiplication wraps. -/
def mul_u64 (a b : Nat) : Nat := (a * b) % U64_SIZE

/-- The value of `sizeof(float)`. -/
def sizeof_float : Nat := 4

/-- The value of `sizeof(_u8)`. -/
def sizeof_u8 : Nat := 1

/-- A byte (`_u8`). -/
abbrev U8 : Type := Fin 256

/-! ## Floating point, abstractly -/

/-- The operations on `float` that the header (and the kernels it declares) use. -/
structure FloatOps (F : Type) where
  /-- the float whose object representation is all-zero bytes, `0.0f` -/
  zero : F
  /-- the literal `1.0f` -/
  one : F
  /-- the sum `a + b` -/
  add : F → F → F
  /-- the quotient `a / b` -/
  div : F → F → F
  /-- the comparison `a != b` -/
  ne : F → F → Bool

/-- A concrete instance used to run the definitions: rationals with exact arithmetic. -/
def ratOps : FloatOps ℚ :=
  ⟨0, 1, fun a b => a + b, fun a b => a / b, fun a b => decide (a ≠ b)⟩

/-- The conversion `static_cast<float>` for that instance, from integer queries. -/
def ratCast (x : Int) : ℚ := x

/-! ## Memory -/

/-- A heap buffer of elements of type `α`; `none` is an indeterminate cell. -/
abbrev Buffer (α : Type) : Type := List (Option α)

/-- The store `buf[i] = v`; a fault when `i` is outside the buffer. -/
def store {α : Type} (buf : Buffer α) (i : Nat) (v : α) : Option (Buffer α) :=
  if i < buf.length then some (buf.set i (some v)) else none

/-- The load `buf[i]`; a fault when `i` is outside the buffer or the cell is indeterminate. -/
def load {α : Type} (buf : Buffer α) (i : Nat) : Option α :=
  (buf[i]?).join

/-- Modelled from the spec: `diskann::alloc_aligned(ptr, size, align)` of `utils.h`, which is
not part of the sources at hand.  The spec has the arena allocate its buffers "at alignment
suitable for vectorized access" and says that scratch buffers are not initialised: the call
yields a buffer of `size` bytes, i.e. `size / eltSize` elements, all of them indeterminate. -/
def alloc_aligned (α : Type) (eltSize size _align : Nat) : Buffer α :=
  List.replicate (size / eltSize) none

/-- The call `memset(buf, 0, nbytes)` on a buffer of floats: every float that is covered
entirely becomes `0.0f`, a float covered in part becomes indeterminate; a fault when
`nbytes` exceeds the size of the buffer. -/
def memset_zero {F : Type} (ops : FloatOps F) (buf : Buffer F) (nbytes : Nat) : Option (Buffer F) :=
  if nbytes ≤ sizeof_float * buf.length then
    let full := nbytes / sizeof_float
    let part : Buffer F := if nbytes % sizeof_float = 0 then [] else [none]
    some (List.replicate full (some ops.zero) ++ part ++ buf.drop (full + part.length))
  else none

/-! ## `PQScratch` -/

/-- The five buffers of `template <typename T> struct PQScratch`. -/
structure PQScratch (F : Type) where
  /-- the member `float *aligned_pqtable_dist_scratch` -/
  aligned_pqtable_dist_scratch : Buffer F
  /-- the member `float *aligned_dist_scratch` -/
  aligned_dist_scratch : Buffer F
  /-- the member `_u8 *aligned_pq_coord_scratch` -/
  aligned_pq_coord_scratch : Buffer U8
  /-- the member `float *rotated_query` -/
  rotated_query : Buffer F
  /-- the member `float *aligned_query_float` -/
  aligned_query_float : Buffer F

/-- Size argument of the first allocation:
`(_u64)graph_degree * (_u64)MAX_PQ_CHUNKS * sizeof(_u8)`. -/
def coord_scratch_bytes (graph_degree : Nat) : Nat :=
  mul_u64 (mul_u64 graph_degree MAX_PQ_CHUNKS) sizeof_u8

/-- Size argument of the second allocation: `256 * (_u64)MAX_PQ_CHUNKS * sizeof(float)`. -/
def pqtable_scratch_bytes : Nat :=
  mul_u64 (mul_u64 256 MAX_PQ_CHUNKS) sizeof_float

/-- Size argument of the third allocation: `(_u64)graph_degree * sizeof(float)`. -/
def dist_scratch_bytes (graph_degree : Nat) : Nat :=
  mul_u64 graph_degree sizeof_float

/-- Size argument of the last two allocations and of both `memset`s:
`aligned_dim * sizeof(float)`. -/
def query_bytes (aligned_dim : Nat) : Nat :=
  mul_u64 aligned_dim sizeof_float

/-- Alignment argument of the last two allocations: `8 * sizeof(float)`. -/
def query_align : Nat := mul_u64 8 sizeof_float

/-- One call of `alloc_aligned`: the requested size in bytes and the alignment. -/
structure AllocRequest where
  /-- second argument of `alloc_aligned` -/
  size : Nat
  /-- third argument of `alloc_aligned` -/
  align : Nat
deriving DecidableEq, Repr

/-- The allocation requests of `PQScratch(graph_degree, aligned_dim)`, in program order. -/
def alloc_requests (graph_degree aligned_dim : Nat) : List AllocRequest :=
  [ ⟨coord_scratch_bytes graph_degree, 256⟩,
    ⟨pqtable_scratch_bytes, 256⟩,
    ⟨dist_scratch_bytes graph_degree, 256⟩,
    ⟨query_bytes aligned_dim, query_align⟩,
    ⟨query_bytes aligned_dim, query_align⟩ ]

/-- The constructor `PQScratch(size_t graph_degree, size_t aligned_dim)` (the name
`PQScratch` itself is taken by the structure): five allocations, then the two query
buffers are cleared. -/
def new_PQScratch {F : Type} (ops : FloatOps F) (graph_degree aligned_dim : Nat) :
    Option (PQScratch F) :=
  let coord : Buffer U8 := alloc_aligned U8 sizeof_u8 (coord_scratch_bytes graph_degree) 256
  let pqtable : Buffer F := alloc_aligned F sizeof_float pqtable_scratch_bytes 256
  let dist : Buffer F := alloc_aligned F sizeof_float (dist_scratch_bytes graph_degree) 256
  let aq : Buffer F := alloc_aligned F sizeof_float (query_bytes aligned_dim) query_align
  let rq : Buffer F := alloc_aligned F sizeof_float (query_bytes aligned_dim) query_align
  (memset_zero ops aq (query_bytes aligned_dim)).bind fun aq0 =>
  (memset_zero ops rq (query_bytes aligned_dim)).bind fun rq0 =>
  some ⟨pqtable, dist, coord, rq0, aq0⟩

/-- The value stored by one iteration of `set`:
`static_cast<float>(x) / norm` if `norm != 1.0f`, else `static_cast<float>(x)`. -/
def set_value {F T : Type} (ops : FloatOps F) (cast : T → F) (norm : F) (x : T) : F :=
  if ops.ne norm ops.one then ops.div (cast x) norm else cast x

/-- The body of the loop of `set` at index `d`:
`rotated_query[d] = aligned_query_float[d] = value`. -/
def set_body {F T : Type} (ops : FloatOps F) (cast : T → F) (query : List T) (norm : F)
    (s : PQScratch F) (d : Nat) : Option (PQScratch F) :=
  (query[d]?).bind fun x =>
  (store s.aligned_query_float d (set_value ops cast norm x)).bind fun aq =>
  (store s.rotated_query d (set_value ops cast norm x)).bind fun rq =>
  some ⟨s.aligned_pqtable_dist_scratch, s.aligned_dist_scratch, s.aligned_pq_coord_scratch, rq, aq⟩

/-- The method `void set(size_t dim, T *query, const float norm = 1.0f)`:
the loop `for (size_t d = 0; d < dim; ++d)`. -/
def PQScratch.set {F T : Type} (ops : FloatOps F) (cast : T → F) (s : PQScratch F)
    (dim : Nat) (query : List T) (norm : F) : Option (PQScratch F) :=
  (List.range dim).foldlM (set_body ops cast query norm) s

/-- The state that `set` leaves behind when it runs to completion: the first `dim` cells of
both query buffers hold the converted query, everything else is as before. -/
def set_result {F T : Type} (ops : FloatOps F) (cast : T → F) (s : PQScratch F)
    (dim : Nat) (query : List T) (norm : F) : PQScratch F :=
  ⟨s.aligned_pqtable_dist_scratch, s.aligned_dist_scratch, s.aligned_pq_coord_scratch,
    (query.take dim).map (fun x => some (set_value ops cast norm x)) ++ s.rotated_query.drop dim,
    (query.take dim).map (fun x => some (set_value ops cast norm x))
      ++ s.aligned_query_float.drop dim⟩

/-- What one iteration of the loop of `set` asks of memory: the index `d` and the value it
stores at that index into `aligned_query_float` and `rotated_query`. -/
structure SetStore (F : Type) where
  /-- the loop counter `d` -/
  idx : Nat
  /-- the value assigned to both `aligned_query_float[d]` and `rotated_query[d]` -/
  val : F

/-- The loop of `set` with the memory left out: the stores it issues, one entry per
iteration, in program order.  Only `dim`, `query` and `norm` enter. -/
def set_stores {F T : Type} (ops : FloatOps F) (cast : T → F)
    (dim : Nat) (query : List T) (norm : F) : Option (List (SetStore F)) :=
  (List.range dim).foldlM
    (fun acc d => (query[d]?).bind fun x => some (acc ++ [⟨d, set_value ops cast norm x⟩])) []

/-- Performing one recorded iteration on an arena. -/
def apply_store {F : Type} (s : PQScratch F) (w : SetStore F) : Option (PQScratch F) :=
  (store s.aligned_query_float w.idx w.val).bind fun aq =>
  (store s.rotated_query w.idx w.val).bind fun rq =>
  some ⟨s.aligned_pqtable_dist_scratch, s.aligned_dist_scratch, s.aligned_pq_coord_scratch, rq, aq⟩

/-- Performing a sequence of recorded iterations on an arena. -/
def apply_stores {F : Type} (s : PQScratch F) (ws : List (SetStore F)) : Option (PQScratch F) :=
  ws.foldlM apply_store s

/-- The arguments of one call of `set`. -/
structure SetCall (F T : Type) where
  /-- the argument `size_t dim` -/
  dim : Nat
  /-- the argument `T *query` -/
  query : List T
  /-- the argument `const float norm` -/
  norm : F

/-- A finite sequence of calls of `set` on the same arena. -/
def run_sets {F T : Type} (ops : FloatOps F) (cast : T → F) (s : PQScratch F)
    (calls : List (SetCall F T)) : Option (PQScratch F) :=
  calls.foldlM (fun st c => PQScratch.set ops cast st c.dim c.query c.norm) s

/-- The first `dim` cells of `aligned_query_float` and of `rotated_query`. -/
def query_view {F : Type} (dim : Nat) (s : PQScratch F) : Buffer F × Buffer F :=
  (s.aligned_query_float.take dim, s.rotated_query.take dim)

/-! ## Lookup kernels

The header only declares `aggregate_coords` and `pq_dist_lookup`; their bodies are in a
translation unit that is not part of the sources at hand. -/

/-- The copy of `n` elements `src[soff ..]` to `dst[doff ..]`, element by element; a fault
when either range leaves its buffer. -/
def copy_row {α : Type} (dst : Buffer α) (doff : Nat) (src : List α) (soff n : Nat) :
    Option (Buffer α) :=
  (List.range n).foldlM (fun b j => (src[soff + j]?).bind fun x => store b (doff + j) x) dst

/-- Modelled from the spec: the body of
`aggregate_coords(const unsigned *ids, _u64 n_ids, const _u8 *all_coords, _u64 ndims, _u8 *out)`
is missing.  The spec: it "gathers the code row for each requested point ID from the full
code matrix into a contiguous buffer, preserving input order".  For the `i`-th id, in input
order, row `ids[i]` of the row-major matrix `all_coords` (width `ndims`) is copied to row `i`
of `out`. -/
def aggregate_coords_ptr {B : Type} (ids : List Nat) (n_ids : Nat) (all_coords : List B)
    (ndims : Nat) (out : Buffer B) : Option (Buffer B) :=
  (List.range n_ids).foldlM
    (fun b i => (ids[i]?).bind fun id => copy_row b (i * ndims) all_coords (id * ndims) ndims) out

/-- Modelled from the spec: the body of
`aggregate_coords(const std::vector<unsigned> &ids, const _u8 *all_coords, _u64 ndims, _u8 *out)`
is missing.  The same gather as the pointer overload, over all `ids.size()` entries. -/
def aggregate_coords {B : Type} (ids : List Nat) (all_coords : List B)
    (ndims : Nat) (out : Buffer B) : Option (Buffer B) :=
  aggregate_coords_ptr ids ids.length all_coords ndims out

/-- Modelled from the spec: the inner reduction of `pq_dist_lookup`, whose body is missing.
The spec: "for each of `n_pts` candidates, sums the `n_chunks` table entries selected by its
codes into one scalar".  For candidate `i` the entries `pq_dists[256 * c + pq_ids[i * n_chunks + c]]`
are accumulated from `0.0f`, chunk after chunk; a fault when a code or a table entry is
outside its array. -/
def pq_dist_candidate {F : Type} (ops : FloatOps F) (pq_ids : List U8) (pq_nchunks : Nat)
    (pq_dists : List F) (i : Nat) : Option F :=
  (List.range pq_nchunks).foldlM
    (fun acc c => (pq_ids[i * pq_nchunks + c]?).bind fun code =>
      (pq_dists[256 * c + code.val]?).bind fun x => some (ops.add acc x)) ops.zero

/-- Modelled from the spec: the body of
`pq_dist_lookup(const _u8 *pq_ids, _u64 n_pts, _u64 pq_nchunks, const float *pq_dists, float *dists_out)`
is missing.  Each of the `n_pts` candidates gets its sum stored in `dists_out[i]`. -/
def pq_dist_lookup_ptr {F : Type} (ops : FloatOps F) (pq_ids : List U8) (n_pts pq_nchunks : Nat)
    (pq_dists : List F) (dists_out : Buffer F) : Option (Buffer F) :=
  (List.range n_pts).foldlM
    (fun b i => (pq_dist_candidate ops pq_ids pq_nchunks pq_dists i).bind fun x => store b i x)
    dists_out

/-- Modelled from the spec: the body of
`pq_dist_lookup(const _u8 *pq_ids, _u64 n_pts, _u64 pq_nchunks, const float *pq_dists, std::vector<float> &dists_out)`
is missing.  The vector is given `n_pts` entries, entry `i` being the sum of candidate `i`;
what the vector held before is dropped. -/
def pq_dist_lookup {F : Type} (ops : FloatOps F) (pq_ids : List U8) (n_pts pq_nchunks : Nat)
    (pq_dists : List F) (_dists_out : List F) : Option (List F) :=
  (List.range n_pts).mapM (pq_dist_candidate ops pq_ids pq_nchunks pq_dists)

/-- The claimed value of `dists_out[i]`, following the words of the specification: the sum
over the chunks `c < n_chunks` of `pq_dists[256 * c + pq_ids[i * n_chunks + c]]`, the terms
being added in increasing order of `c` (float addition is not associative). -/
def chunk_sum {F : Type} (ops : FloatOps F) (pq_ids : List U8) (n_chunks : Nat)
    (pq_dists : List F) (i : Nat) : F :=
  (List.range n_chunks).foldl
    (fun acc c => ops.add acc (pq_dists.getD (256 * c + (pq_ids.getD (i * n_chunks + c) 0).val) ops.zero))
    ops.zero

/-! ## Concrete data for running the definitions -/

/-- A code matrix of ten rows of width two: row `r` is `[r, r + 100]`. -/
def demo_coords : List U8 :=
  [0, 100, 1, 101, 2, 102, 3, 103, 4, 104, 5, 105, 6, 106, 7, 107, 8, 108, 9, 109]

/-- The id list of the scenario in the specification. -/
def demo_ids : List Nat := [5, 2, 2, 9]

/-- An output buffer of eight bytes, not yet written. -/
def demo_out : Buffer U8 := List.replicate 8 none

/-- Codes of two candidates over two chunks, row-major: `[1, 0]` and `[0, 2]`. -/
def demo_codes : List U8 := [1, 0, 0, 2]

/-- A chunk-distance table for two chunks: entry `256 * c + b` is `1000 * c + b`. -/
def demo_table : List ℚ :=
  (List.range 512).map fun k => ((1000 * (k / 256) + k % 256 : Nat) : ℚ)

/-- Two arenas with query buffers of two floats that hold different left-overs. -/
def demo_arena1 : PQScratch ℚ := ⟨[], [], [], [some 7, none], [none, some 1]⟩

/-- See `demo_arena1`. -/
def demo_arena2 : PQScratch ℚ := ⟨[none], [], [some 3], [some 0, some 0], [some 5, some 6]⟩

/-! ## Memory lemmas -/

theorem store_eq_some {α : Type} (buf : Buffer α) (i : Nat) (v : α) (h : i < buf.length) :
    store buf i v = some (buf.set i (some v)) := by
  simp [store, h]

theorem store_eq_none {α : Type} (buf : Buffer α) (i : Nat) (v : α) (h : buf.length ≤ i) :
    store buf i v = none := by
  simp [store, Nat.not_lt.mpr h]

theorem store_after_written {α : Type} (pre buf : Buffer α) (d : Nat) (v : α)
    (hpre : pre.length = d) (hd : d < buf.length) :
    store (pre ++ buf.drop d) d v = some ((pre ++ [some v]) ++ buf.drop (d + 1)) := by
  subst hpre
  have hlen : pre.length < (pre ++ buf.drop pre.length).length := by
    simp; omega
  rw [store_eq_some _ _ _ hlen, List.set_append_right _ _ (le_refl _),
    List.drop_eq_getElem_cons hd]
  simp only [Nat.sub_self, List.set_cons_zero, List.append_assoc, List.singleton_append]

/-! ## The loop of `set` -/

theorem set_succ {F T : Type} (ops : FloatOps F) (cast : T → F) (s : PQScratch F)
    (dim : Nat) (query : List T) (norm : F) :
    PQScratch.set ops cast s (dim + 1) query norm
      = (PQScratch.set ops cast s dim query norm).bind
          (fun s1 => set_body ops cast query norm s1 dim) := by
  simp [PQScratch.set, List.range_succ, List.foldlM_append]

/-- The loop of `set` completes exactly when the query and both query buffers have `dim`
elements, and then leaves `set_result`. -/
theorem set_eq {F T : Type} (ops : FloatOps F) (cast : T → F) (s : PQScratch F)
    (dim : Nat) (query : List T) (norm : F) :
    PQScratch.set ops cast s dim query norm
      = if dim ≤ query.length ∧ dim ≤ s.aligned_query_float.length ∧ dim ≤ s.rotated_query.length
        then some (set_result ops cast s dim query norm) else none := by
  induction dim with
  | zero => simp [PQScratch.set, set_result]
  | succ n ih =>
    rw [set_succ, ih]
    by_cases h0 : n ≤ query.length ∧ n ≤ s.aligned_query_float.length
        ∧ n ≤ s.rotated_query.length
    · obtain ⟨hq0, ha0, hr0⟩ := h0
      rw [if_pos ⟨hq0, ha0, hr0⟩]
      have hlen : ((query.take n).map (fun x => some (set_value ops cast norm x))).length = n := by
        simp; omega
      simp only [Option.some_bind, set_body, set_result]
      by_cases hq : n + 1 ≤ query.length
      · have hqn : query[n]? = some query[n] := List.getElem?_eq_getElem hq
        simp only [hqn, Option.some_bind]
        by_cases ha : n + 1 ≤ s.aligned_query_float.length
        · rw [store_after_written _ _ n _ hlen ha]
          by_cases hr : n + 1 ≤ s.rotated_query.length
          · rw [store_after_written _ _ n _ hlen hr, if_pos ⟨hq, ha, hr⟩]
            simp only [Option.some_bind, List.take_succ, hqn, Option.toList, List.map_append,
              List.map_cons, List.map_nil]
          · rw [store_eq_none _ _ _ (by simp; omega), if_neg (fun h => hr h.2.2)]
            simp
        · rw [store_eq_none _ _ _ (by simp; omega), if_neg (fun h => ha h.2.1)]
          simp
      · have hqn : query[n]? = none := List.getElem?_eq_none (by omega)
        rw [if_neg (fun h => hq h.1)]
        simp [hqn]
    · rw [if_neg h0, if_neg (fun h => h0 ⟨by omega, by omega, by omega⟩)]
      simp

/-- Reading a cell that `set` has written. -/
theorem load_written {F T : Type} (f : T → F) (query : List T) (rest : Buffer F)
    (dim d : Nat) (hd : d < dim) (hq : dim ≤ query.length) :
    load ((query.take dim).map (fun x => some (f x)) ++ rest) d
      = some (f (query.get ⟨d, Nat.lt_of_lt_of_le hd hq⟩)) := by
  have hlen : d < ((query.take dim).map (fun x => some (f x))).length := by
    simp; omega
  rw [load, List.getElem?_append_left hlen, List.getElem?_map, List.getElem?_take_of_lt hd,
    List.getElem?_eq_getElem (Nat.lt_of_lt_of_le hd hq)]
  rfl

/-- Reading a cell beyond those that `set` has written. -/
theorem getElem?_unwritten {F T : Type} (f : T → F) (query : List T) (buf : Buffer F)
    (dim i : Nat) (hi : dim ≤ i) (hq : dim ≤ query.length) :
    ((query.take dim).map (fun x => some (f x)) ++ buf.drop dim)[i]? = buf[i]? := by
  have hlen : ((query.take dim).map (fun x => some (f x))).length = dim := by
    simp; omega
  rw [List.getElem?_append_right (by omega), hlen, List.getElem?_drop]
  congr 1
  omega

theorem set_result_length {F T : Type} (ops : FloatOps F) (cast : T → F) (s : PQScratch F)
    (dim : Nat) (query : List T) (norm : F) (hq : dim ≤ query.length) :
    (dim ≤ s.aligned_query_float.length →
      (set_result ops cast s dim query norm).aligned_query_float.length
        = s.aligned_query_float.length) ∧
    (dim ≤ s.rotated_query.length →
      (set_result ops cast s dim query norm).rotated_query.length = s.rotated_query.length) := by
  constructor <;> intro h <;> simp [set_result] <;> omega

/-! ## The stores issued by `set` -/

theorem set_stores_succ {F T : Type} (ops : FloatOps F) (cast : T → F)
    (dim : Nat) (query : List T) (norm : F) :
    set_stores ops cast (dim + 1) query norm
      = (set_stores ops cast dim query norm).bind fun acc =>
          (query[dim]?).bind fun x => some (acc ++ [⟨dim, set_value ops cast norm x⟩]) := by
  simp [set_stores, List.range_succ, List.foldlM_append]

theorem apply_stores_append {F : Type} (s : PQScratch F) (ws : List (SetStore F))
    (w : SetStore F) :
    apply_stores s (ws ++ [w]) = (apply_stores s ws).bind fun s1 => apply_store s1 w := by
  simp [apply_stores, List.foldlM_append]

/-- Running `set` on an arena is performing, on that arena, the stores that the loop issues. -/
theorem set_eq_apply_stores {F T : Type} (ops : FloatOps F) (cast : T → F) (s : PQScratch F)
    (dim : Nat) (query : List T) (norm : F) :
    PQScratch.set ops cast s dim query norm
      = (set_stores ops cast dim query norm).bind (apply_stores s) := by
  induction dim with
  | zero => simp [PQScratch.set, set_stores, apply_stores]
  | succ n ih =>
    rw [set_succ, set_stores_succ, ih]
    cases hws : set_stores ops cast n query norm with
    | none => simp
    | some ws =>
      simp only [Option.some_bind]
      cases hx : query[n]? with
      | none =>
        cases apply_stores s ws <;> simp [set_body, hx]
      | some x =>
        simp only [Option.some_bind, apply_stores_append]
        cases apply_stores s ws <;> simp [set_body, hx, apply_store]

/-- The loop of `set` issues one store per index below `dim`, in increasing order. -/
theorem set_stores_indices {F T : Type} (ops : FloatOps F) (cast : T → F)
    (dim : Nat) (query : List T) (norm : F) (hq : dim ≤ query.length) :
    ∃ ws, set_stores ops cast dim query norm = some ws ∧
      ws.map SetStore.idx = List.range dim := by
  induction dim with
  | zero => exact ⟨[], by simp [set_stores], by simp⟩
  | succ n ih =>
    obtain ⟨ws, hws, hidx⟩ := ih (by omega)
    have hqn : query[n]? = some query[n] := List.getElem?_eq_getElem hq
    refine ⟨ws ++ [⟨n, set_value ops cast norm query[n]⟩], ?_, ?_⟩
    · rw [set_stores_succ, hws, Option.some_bind, hqn, Option.some_bind]
    · simp [hidx, List.range_succ]

/-! ## The constructor -/

theorem query_bytes_mod (aligned_dim : Nat) : query_bytes aligned_dim % sizeof_float = 0 := by
  simp only [query_bytes, mul_u64, U64_SIZE, sizeof_float]
  omega

/-- The constructor always completes; the query buffers get `query_bytes aligned_dim / 4`
cells, all zero, and the three scratch buffers stay indeterminate. -/
theorem new_PQScratch_eq {F : Type} (ops : FloatOps F) (graph_degree aligned_dim : Nat) :
    new_PQScratch ops graph_degree aligned_dim
      = some ⟨List.replicate (pqtable_scratch_bytes / sizeof_float) none,
          List.replicate (dist_scratch_bytes graph_degree / sizeof_float) none,
          List.replicate (coord_scratch_bytes graph_degree / sizeof_u8) none,
          List.replicate (query_bytes aligned_dim / sizeof_float) (some ops.zero),
          List.replicate (query_bytes aligned_dim / sizeof_float) (some ops.zero)⟩ := by
  have hmod := query_bytes_mod aligned_dim
  have hle : query_bytes aligned_dim
      ≤ sizeof_float * (List.replicate (query_bytes aligned_dim / sizeof_float)
          (none : Option F)).length := by
    rw [List.length_replicate]
    have := Nat.div_add_mod (query_bytes aligned_dim) sizeof_float
    omega
  have hms : memset_zero ops (List.replicate (query_bytes aligned_dim / sizeof_float) none)
      (query_bytes aligned_dim)
        = some (List.replicate (query_bytes aligned_dim / sizeof_float) (some ops.zero)) := by
    rw [memset_zero, if_pos hle]
    simp [hmod]
  simp only [new_PQScratch, alloc_aligned, hms, Option.some_bind]

theorem query_bytes_of_lt (aligned_dim : Nat) (h : aligned_dim * 4 < 2 ^ 64) :
    query_bytes aligned_dim / sizeof_float = aligned_dim := by
  simp only [query_bytes, mul_u64, U64_SIZE, sizeof_float]
  rw [Nat.mod_eq_of_lt h]
  omega

/-! ## Claims about `set` -/

/-- C1: `PQScratch::set` copies the query into both query buffers.  For every `dim`, every
query with at least `dim` elements and every `norm` (zero or not), a call that stays inside
the two buffers completes, and in the state `s'` after `set(dim, query, norm)` every index
`d < dim` of `rotated_query` and of `aligned_query_float` reads as
`float(query[d]) / norm` when `norm != 1.0f` and as `float(query[d])` when `norm == 1.0f`. -/
theorem set_copies_query {F T : Type} (ops : FloatOps F) (cast : T → F) (s : PQScratch F)
    (dim : Nat) (query : List T) (norm : F) (hq : dim ≤ query.length) :
    (dim ≤ s.aligned_query_float.length → dim ≤ s.rotated_query.length →
      (PQScratch.set ops cast s dim query norm).isSome) ∧
    ∀ s', PQScratch.set ops cast s dim query norm = some s' →
      ∀ (d : Nat) (hd : d < dim),
        (ops.ne norm ops.one = true →
          load s'.rotated_query d
            = some (ops.div (cast (query.get ⟨d, Nat.lt_of_lt_of_le hd hq⟩)) norm) ∧
          load s'.aligned_query_float d
            = some (ops.div (cast (query.get ⟨d, Nat.lt_of_lt_of_le hd hq⟩)) norm)) ∧
        (ops.ne norm ops.one = false →
          load s'.rotated_query d = some (cast (query.get ⟨d, Nat.lt_of_lt_of_le hd hq⟩)) ∧
          load s'.aligned_query_float d
            = some (cast (query.get ⟨d, Nat.lt_of_lt_of_le hd hq⟩))) := by
  constructor
  · intro ha hr
    rw [set_eq, if_pos ⟨hq, ha, hr⟩]
    rfl
  · intro s' hs' d hd
    rw [set_eq] at hs'
    split at hs'
    · injection hs' with hs'
      subst hs'
      have hr : load (set_result ops cast s dim query norm).rotated_query d
          = some (set_value ops cast norm (query.get ⟨d, Nat.lt_of_lt_of_le hd hq⟩)) :=
        load_written (set_value ops cast norm) query (s.rotated_query.drop dim) dim d hd hq
      have ha : load (set_result ops cast s dim query norm).aligned_query_float d
          = some (set_value ops cast norm (query.get ⟨d, Nat.lt_of_lt_of_le hd hq⟩)) :=
        load_written (set_value ops cast norm) query (s.aligned_query_float.drop dim) dim d hd hq
      constructor
      · intro hne
        rw [set_value, if_pos hne] at hr ha
        exact ⟨hr, ha⟩
      · intro hne
        rw [set_value, if_neg (by simp [hne])] at hr ha
        exact ⟨hr, ha⟩
    · exact absurd hs' (by simp)

/-- Witness of C1: the query `[3, 4]` with norm `2` on an arena of two floats. -/
theorem set_copies_query_witness :
    2 ≤ ([3, 4] : List Int).length ∧
    ∀ s', PQScratch.set ratOps ratCast demo_arena1 2 [3, 4] 2 = some s' →
      load s'.rotated_query 1 = some (ratOps.div (ratCast 4) 2) ∧
      load s'.aligned_query_float 1 = some (ratOps.div (ratCast 4) 2) :=
  ⟨by decide, fun s' h =>
    ((set_copies_query ratOps ratCast demo_arena1 2 [3, 4] 2 (by decide)).2 s' h 1
      (by decide)).1 (by decide)⟩

/-- C4: reusing an arena needs no cleanup.  For two arena states `s1`, `s2` whose query
buffers hold `aligned_dim` floats each, whatever their contents, and every `dim ≤ aligned_dim`,
query and norm, `set(dim, query, norm)` has the same outcome on both as far as the first `dim`
entries of `aligned_query_float` and `rotated_query` go; when the query has `dim` elements the
call completes and these entries are the converted query, a function of `query` and `norm`
alone. -/
theorem set_independent_of_history {F T : Type} (ops : FloatOps F) (cast : T → F)
    (s1 s2 : PQScratch F) (aligned_dim dim : Nat) (query : List T) (norm : F)
    (h1a : s1.aligned_query_float.length = aligned_dim)
    (h1r : s1.rotated_query.length = aligned_dim)
    (h2a : s2.aligned_query_float.length = aligned_dim)
    (h2r : s2.rotated_query.length = aligned_dim)
    (hdim : dim ≤ aligned_dim) :
    (PQScratch.set ops cast s1 dim query norm).map (query_view dim)
      = (PQScratch.set ops cast s2 dim query norm).map (query_view dim) ∧
    (dim ≤ query.length →
      (PQScratch.set ops cast s1 dim query norm).map (query_view dim)
        = some ((query.take dim).map (fun x => some (set_value ops cast norm x)),
                (query.take dim).map (fun x => some (set_value ops cast norm x)))) := by
  have key : ∀ s : PQScratch F, s.aligned_query_float.length = aligned_dim →
      s.rotated_query.length = aligned_dim →
      (PQScratch.set ops cast s dim query norm).map (query_view dim)
        = if dim ≤ query.length then
            some ((query.take dim).map (fun x => some (set_value ops cast norm x)),
                  (query.take dim).map (fun x => some (set_value ops cast norm x)))
          else none := by
    intro s ha hr
    rw [set_eq]
    by_cases hq : dim ≤ query.length
    · have hlen : ((query.take dim).map (fun x => some (set_value ops cast norm x))).length
          = dim := by
        simp; omega
      rw [if_pos ⟨hq, by omega, by omega⟩, if_pos hq]
      simp only [Option.map_some', query_view, set_result]
      rw [List.take_left' hlen, List.take_left' hlen]
    · rw [if_neg (fun h => hq h.1), if_neg hq]
      rfl
  constructor
  · rw [key s1 h1a h1r, key s2 h2a h2r]
  · intro hq
    rw [key s1 h1a h1r, if_pos hq]

/-- Witness of C4: two arenas of two floats with different left-overs, query `[3, 4]`. -/
theorem set_independent_of_history_witness :
    (PQScratch.set ratOps ratCast demo_arena1 2 [3, 4] 2).map (query_view 2)
      = (PQScratch.set ratOps ratCast demo_arena2 2 [3, 4] 2).map (query_view 2) :=
  (set_independent_of_history ratOps ratCast demo_arena1 demo_arena2 2 2 [3, 4] 2
    (by decide) (by decide) (by decide) (by decide) (by decide)).1

/-- The stores of `set`, for a query of at least `dim` elements: one per iteration, at
the indices `0, …, dim - 1`, and running `set` on any arena is performing them there. -/
theorem set_stores_spec {F T : Type} (ops : FloatOps F) (cast : T → F)
    (dim : Nat) (query : List T) (norm : F) (hq : dim ≤ query.length) :
    ∃ ws, set_stores ops cast dim query norm = some ws ∧
      ws.length = dim ∧
      (∀ n, (∀ w ∈ ws, w.idx < n) ↔ dim ≤ n) ∧
      (∀ s : PQScratch F, PQScratch.set ops cast s dim query norm = apply_stores s ws) := by
  obtain ⟨ws, hws, hidx⟩ := set_stores_indices ops cast dim query norm hq
  have hmem : ∀ d, d ∈ ws.map SetStore.idx ↔ d < dim := by
    intro d
    rw [hidx, List.mem_range]
  refine ⟨ws, hws, ?_, ?_, ?_⟩
  · have := congrArg List.length hidx
    simpa using this
  · intro n
    constructor
    · intro h
      by_contra hlt
      have hin : n ∈ ws.map SetStore.idx := (hmem n).2 (by omega)
      obtain ⟨w, hw, hwi⟩ := List.mem_map.1 hin
      have := h w hw
      omega
    · intro h w hw
      have : w.idx < dim := (hmem w.idx).1 (List.mem_map.2 ⟨w, hw, rfl⟩)
      omega
  · intro s
    rw [set_eq_apply_stores, hws, Option.some_bind]

/-! ## Claims about the constructor -/

theorem pqtable_scratch_len : pqtable_scratch_bytes / sizeof_float = 98304 := by
  decide

theorem coord_scratch_of_lt (graph_degree : Nat) (h : graph_degree * 384 < 2 ^ 64) :
    coord_scratch_bytes graph_degree / sizeof_u8 = graph_degree * 384 := by
  simp only [coord_scratch_bytes, mul_u64, U64_SIZE, sizeof_u8, MAX_PQ_CHUNKS]
  rw [Nat.mod_eq_of_lt h, Nat.mul_one, Nat.mod_eq_of_lt h, Nat.div_one]

theorem dist_scratch_of_lt (graph_degree : Nat) (h : graph_degree * 4 < 2 ^ 64) :
    dist_scratch_bytes graph_degree / sizeof_float = graph_degree := by
  simp only [dist_scratch_bytes, mul_u64, U64_SIZE, sizeof_float]
  rw [Nat.mod_eq_of_lt h]
  omega

theorem load_replicate_some {α : Type} (n i : Nat) (v : α) (h : i < n) :
    load (List.replicate n (some v)) i = some v := by
  simp [load, List.getElem?_replicate, h]

/-- C2 fails as stated: with `aligned_dim = 2 ^ 62 + 8` the byte size `aligned_dim * 4`
wraps to 32, the query buffers get eight floats, and index 8, which is below `aligned_dim`,
is outside `aligned_query_float`. -/
theorem ctor_zero_init_counterexample :
    8 < 2 ^ 62 + 8 ∧
    (new_PQScratch ratOps 64 (2 ^ 62 + 8)).map (fun s => load s.aligned_query_float 8)
      = some none := by
  refine ⟨by decide, ?_⟩
  rw [new_PQScratch_eq]
  decide

/-- C2, amended: for every `graph_degree` and every `aligned_dim` whose byte size
`aligned_dim * 4` fits 64 bits, the constructor completes, every index `i < aligned_dim` of
`aligned_query_float` and of `rotated_query` reads as zero, and every cell of the three other
scratch buffers is left without contents. -/
theorem ctor_zero_init {F : Type} (ops : FloatOps F) (graph_degree aligned_dim : Nat)
    (h : aligned_dim * 4 < 2 ^ 64) :
    ∃ s, new_PQScratch ops graph_degree aligned_dim = some s ∧
      (∀ i, i < aligned_dim →
        load s.aligned_query_float i = some ops.zero ∧ load s.rotated_query i = some ops.zero) ∧
      (∀ c ∈ s.aligned_pqtable_dist_scratch, c = none) ∧
      (∀ c ∈ s.aligned_dist_scratch, c = none) ∧
      (∀ c ∈ s.aligned_pq_coord_scratch, c = none) := by
  refine ⟨_, new_PQScratch_eq ops graph_degree aligned_dim, ?_, ?_, ?_, ?_⟩
  · intro i hi
    simp only [query_bytes_of_lt aligned_dim h]
    exact ⟨load_replicate_some _ _ _ hi, load_replicate_some _ _ _ hi⟩
  · intro c hc
    exact (List.mem_replicate.1 hc).2
  · intro c hc
    exact (List.mem_replicate.1 hc).2
  · intro c hc
    exact (List.mem_replicate.1 hc).2

/-- Witness of the amended C2: fan-out 64, dimension 8. -/
theorem ctor_zero_init_witness :
    8 * 4 < 2 ^ 64 ∧
    ∃ s, new_PQScratch ratOps 64 8 = some s ∧
      (∀ i, i < 8 →
        load s.aligned_query_float i = some ratOps.zero ∧
        load s.rotated_query i = some ratOps.zero) ∧
      (∀ c ∈ s.aligned_pqtable_dist_scratch, c = none) ∧
      (∀ c ∈ s.aligned_dist_scratch, c = none) ∧
      (∀ c ∈ s.aligned_pq_coord_scratch, c = none) :=
  ⟨by decide, ctor_zero_init ratOps 64 8 (by decide)⟩

/-- C3 fails as stated: with `graph_degree = 2 ^ 62 + 64` the byte size `graph_degree * 4`
wraps to 256, so `aligned_dist_scratch` holds 64 floats and not `graph_degree` floats. -/
theorem ctor_sizes_counterexample :
    (new_PQScratch ratOps (2 ^ 62 + 64) 8).map (fun s => s.aligned_dist_scratch.length)
      = some 64 ∧ 64 ≠ 2 ^ 62 + 64 := by
  refine ⟨?_, by decide⟩
  rw [new_PQScratch_eq]
  simp only [Option.map_some', List.length_replicate]
  decide

/-- C3, amended: for every `graph_degree` and `aligned_dim` the constructor completes with
`aligned_pqtable_dist_scratch` holding exactly `384 * 256 = 98304` floats; the code-gather
buffer `aligned_pq_coord_scratch` holds exactly `graph_degree * 384` bytes whenever
`graph_degree * 384` fits 64 bits, `aligned_dist_scratch` exactly `graph_degree` floats
whenever `graph_degree * 4` fits 64 bits, and `aligned_query_float` and `rotated_query`
exactly `aligned_dim` floats each whenever `aligned_dim * 4` fits 64 bits. -/
theorem ctor_sizes {F : Type} (ops : FloatOps F) (graph_degree aligned_dim : Nat) :
    ∃ s, new_PQScratch ops graph_degree aligned_dim = some s ∧
      s.aligned_pqtable_dist_scratch.length = MAX_PQ_CHUNKS * NUM_PQ_CENTROIDS ∧
      MAX_PQ_CHUNKS * NUM_PQ_CENTROIDS = 98304 ∧
      (graph_degree * 384 < 2 ^ 64 →
        s.aligned_pq_coord_scratch.length = graph_degree * MAX_PQ_CHUNKS) ∧
      (graph_degree * 4 < 2 ^ 64 → s.aligned_dist_scratch.length = graph_degree) ∧
      (aligned_dim * 4 < 2 ^ 64 →
        s.aligned_query_float.length = aligned_dim ∧ s.rotated_query.length = aligned_dim) := by
  refine ⟨_, new_PQScratch_eq ops graph_degree aligned_dim, ?_, by decide, ?_, ?_, ?_⟩
  · rw [List.length_replicate, pqtable_scratch_len]
    decide
  · intro hg
    rw [List.length_replicate, coord_scratch_of_lt graph_degree hg, MAX_PQ_CHUNKS]
  · intro hg
    rw [List.length_replicate, dist_scratch_of_lt graph_degree hg]
  · intro ha
    constructor <;> rw [List.length_replicate, query_bytes_of_lt aligned_dim ha]

/-- Witness of the amended C3: fan-out 64, dimension 8. -/
theorem ctor_sizes_witness :
    64 * 384 < 2 ^ 64 ∧ 64 * 4 < 2 ^ 64 ∧ 8 * 4 < 2 ^ 64 ∧
    ∃ s, new_PQScratch ratOps 64 8 = some s ∧
      s.aligned_pqtable_dist_scratch.length = 98304 ∧
      s.aligned_pq_coord_scratch.length = 64 * 384 ∧
      s.aligned_dist_scratch.length = 64 ∧
      s.aligned_query_float.length = 8 ∧
      s.rotated_query.length = 8 := by
  obtain ⟨s, hs, ht, h98, hc, hd, hq⟩ := ctor_sizes ratOps 64 8
  exact ⟨by decide, by decide, by decide, s, hs, ht.trans h98, hc (by decide), hd (by decide),
    (hq (by decide)).1, (hq (by decide)).2⟩

/-- C7 fails as stated: with `graph_degree = 2 ^ 62 + 64` the byte size `graph_degree * 4`
wraps to 256, so `aligned_dist_scratch` has room for 64 floats only, less than the candidate
count `n_pts = 65 ≤ graph_degree`. -/
theorem scratch_min_sizes_counterexample :
    1 ≤ MAX_PQ_CHUNKS ∧ 65 ≤ 2 ^ 62 + 64 ∧
    (new_PQScratch ratOps (2 ^ 62 + 64) 8).map
        (fun s => decide (65 ≤ s.aligned_dist_scratch.length)) = some false := by
  refine ⟨by decide, by decide, ?_⟩
  rw [new_PQScratch_eq]
  simp only [Option.map_some', List.length_replicate]
  decide

/-- C7, amended: for every `graph_degree` whose byte size `graph_degree * 384` fits 64 bits,
every `n_chunks ≤ MAX_PQ_CHUNKS` and every candidate count `n_pts ≤ graph_degree`, the arena
has `256 * n_chunks ≤` capacity of `aligned_pqtable_dist_scratch` (the flat index `256 * c + b`
is in range for every chunk `c < n_chunks` and byte code `b < 256`), `n_chunks * n_pts ≤`
capacity of `aligned_pq_coord_scratch` and `n_pts ≤` capacity of `aligned_dist_scratch`. -/
theorem scratch_min_sizes {F : Type} (ops : FloatOps F) (graph_degree aligned_dim : Nat)
    (n_chunks n_pts : Nat) (hg : graph_degree * 384 < 2 ^ 64)
    (hc : n_chunks ≤ MAX_PQ_CHUNKS) (hp : n_pts ≤ graph_degree) :
    ∃ s, new_PQScratch ops graph_degree aligned_dim = some s ∧
      256 * n_chunks ≤ s.aligned_pqtable_dist_scratch.length ∧
      (∀ (c : Nat) (b : U8), c < n_chunks →
        256 * c + b.val < s.aligned_pqtable_dist_scratch.length) ∧
      n_chunks * n_pts ≤ s.aligned_pq_coord_scratch.length ∧
      n_pts ≤ s.aligned_dist_scratch.length := by
  have hc384 : n_chunks ≤ 384 := hc
  refine ⟨_, new_PQScratch_eq ops graph_degree aligned_dim, ?_, ?_, ?_, ?_⟩
  · rw [List.length_replicate, pqtable_scratch_len]
    omega
  · intro c b hcb
    rw [List.length_replicate, pqtable_scratch_len]
    have := b.isLt
    omega
  · rw [List.length_replicate, coord_scratch_of_lt graph_degree hg]
    calc n_chunks * n_pts ≤ 384 * graph_degree := Nat.mul_le_mul hc384 hp
      _ = graph_degree * 384 := Nat.mul_comm _ _
  · rw [List.length_replicate, dist_scratch_of_lt graph_degree (by omega)]
    exact hp

/-- Witness of the amended C7: fan-out 64, 384 chunks, 64 candidates. -/
theorem scratch_min_sizes_witness :
    64 * 384 < 2 ^ 64 ∧ 384 ≤ MAX_PQ_CHUNKS ∧ 64 ≤ 64 ∧
    ∃ s, new_PQScratch ratOps 64 8 = some s ∧
      256 * 384 ≤ s.aligned_pqtable_dist_scratch.length ∧
      (∀ (c : Nat) (b : U8), c < 384 →
        256 * c + b.val < s.aligned_pqtable_dist_scratch.length) ∧
      384 * 64 ≤ s.aligned_pq_coord_scratch.length ∧
      64 ≤ s.aligned_dist_scratch.length :=
  ⟨by decide, by decide, by decide,
    scratch_min_sizes ratOps 64 8 384 64 (by decide) (by decide) (by decide)⟩

/-- C10: each of the five allocation requests of `PQScratch(graph_degree, aligned_dim)` has
a byte size that is a multiple of its alignment if and only if `graph_degree` is a multiple
of 64 and `aligned_dim` a multiple of 8, the sizes being computed modulo `2 ^ 64` with
`sizeof(float) = 4`; the requests are `graph_degree * 384` bytes at 256, `256 * 384 * 4`
bytes at 256, `graph_degree * 4` bytes at 256 and `aligned_dim * 4` bytes at 32, twice; the
request for the chunk-distance table is a multiple of its alignment for every input. -/
theorem alloc_requests_aligned_iff (graph_degree aligned_dim : Nat) :
    ((∀ r ∈ alloc_requests graph_degree aligned_dim, r.size % r.align = 0)
      ↔ (graph_degree % 64 = 0 ∧ aligned_dim % 8 = 0)) ∧
    alloc_requests graph_degree aligned_dim
      = [⟨graph_degree * 384 % 2 ^ 64, 256⟩, ⟨256 * 384 * 4, 256⟩,
         ⟨graph_degree * 4 % 2 ^ 64, 256⟩, ⟨aligned_dim * 4 % 2 ^ 64, 32⟩,
         ⟨aligned_dim * 4 % 2 ^ 64, 32⟩] ∧
    pqtable_scratch_bytes % 256 = 0 := by
  have hreq : alloc_requests graph_degree aligned_dim
      = [⟨graph_degree * 384 % 2 ^ 64, 256⟩, ⟨256 * 384 * 4, 256⟩,
         ⟨graph_degree * 4 % 2 ^ 64, 256⟩, ⟨aligned_dim * 4 % 2 ^ 64, 32⟩,
         ⟨aligned_dim * 4 % 2 ^ 64, 32⟩] := by
    simp only [alloc_requests, coord_scratch_bytes, pqtable_scratch_bytes, dist_scratch_bytes,
      query_bytes, query_align, mul_u64, U64_SIZE, sizeof_float, sizeof_u8, MAX_PQ_CHUNKS]
    norm_num
  refine ⟨?_, hreq, by decide⟩
  rw [hreq]
  simp only [List.mem_cons, List.mem_singleton, List.not_mem_nil, or_false, forall_eq_or_imp,
    forall_eq]
  norm_num
  omega

/-- C9 fails as stated: the arena built with `aligned_dim = 2 ^ 62 + 8` has query buffers
of eight floats (the byte size wraps to 32), so `set` with `dim = 9 ≤ aligned_dim` and a query
of nine elements stores outside both buffers. -/
theorem set_in_bounds_counterexample :
    9 ≤ 2 ^ 62 + 8 ∧ 9 ≤ ([1, 2, 3, 4, 5, 6, 7, 8, 9] : List Int).length ∧
    (new_PQScratch ratOps 64 (2 ^ 62 + 8)).map
        (fun s => (PQScratch.set ratOps ratCast s 9 [1, 2, 3, 4, 5, 6, 7, 8, 9] 1).isSome)
      = some false := by
  refine ⟨by decide, by decide, ?_⟩
  rw [new_PQScratch_eq]
  simp only [Option.map_some', set_eq, List.length_replicate]
  decide

/-- C9, amended: for an arena `PQScratch(graph_degree, aligned_dim)` whose byte size
`aligned_dim * 4` fits 64 bits and a query of at least `dim` elements, the loop of `set` runs
`dim` iterations, one store per iteration into each query buffer; every index it writes is
below `aligned_dim`, which is the capacity of `aligned_query_float` and of `rotated_query`,
if and only if `dim ≤ aligned_dim`, and the call completes without leaving the buffers if and
only if `dim ≤ aligned_dim`.  `set` makes no such check: its stores depend on `dim`, `query`
and `norm` only and are performed on whatever arena is given. -/
theorem set_in_bounds_iff {F T : Type} (ops : FloatOps F) (cast : T → F)
    (graph_degree aligned_dim dim : Nat) (query : List T) (norm : F)
    (ha : aligned_dim * 4 < 2 ^ 64) (hq : dim ≤ query.length) :
    ∃ s ws, new_PQScratch ops graph_degree aligned_dim = some s ∧
      s.aligned_query_float.length = aligned_dim ∧
      s.rotated_query.length = aligned_dim ∧
      set_stores ops cast dim query norm = some ws ∧
      ws.length = dim ∧
      ((∀ w ∈ ws, w.idx < s.aligned_query_float.length ∧ w.idx < s.rotated_query.length)
        ↔ dim ≤ aligned_dim) ∧
      ((∀ w ∈ ws, w.idx < aligned_dim) ↔ dim ≤ aligned_dim) ∧
      ((PQScratch.set ops cast s dim query norm).isSome ↔ dim ≤ aligned_dim) ∧
      (∀ t : PQScratch F, PQScratch.set ops cast t dim query norm = apply_stores t ws) := by
  obtain ⟨ws, hws, hlen, hidx, happ⟩ := set_stores_spec ops cast dim query norm hq
  have hnew := new_PQScratch_eq ops graph_degree aligned_dim
  rw [query_bytes_of_lt aligned_dim ha] at hnew
  refine ⟨_, ws, hnew, List.length_replicate _ _, List.length_replicate _ _, hws, hlen,
    ?_, hidx aligned_dim, ?_, happ⟩
  · simp only [List.length_replicate, and_self]
    exact hidx aligned_dim
  · rw [set_eq]
    simp only [List.length_replicate]
    by_cases h : dim ≤ aligned_dim
    · simp [hq, h]
    · simp [h]

/-- Witness of the amended C9: three iterations on the arena built with dimension 8. -/
theorem set_in_bounds_iff_witness :
    8 * 4 < 2 ^ 64 ∧ 3 ≤ ([3, 4, 5] : List Int).length ∧
    ∃ s ws, new_PQScratch ratOps 64 8 = some s ∧
      s.aligned_query_float.length = 8 ∧
      s.rotated_query.length = 8 ∧
      set_stores ratOps ratCast 3 [3, 4, 5] 1 = some ws ∧
      ws.length = 3 ∧
      ((∀ w ∈ ws, w.idx < s.aligned_query_float.length ∧ w.idx < s.rotated_query.length)
        ↔ 3 ≤ 8) ∧
      ((∀ w ∈ ws, w.idx < 8) ↔ 3 ≤ 8) ∧
      ((PQScratch.set ratOps ratCast s 3 [3, 4, 5] 1).isSome ↔ 3 ≤ 8) ∧
      (∀ t : PQScratch ℚ, PQScratch.set ratOps ratCast t 3 [3, 4, 5] 1 = apply_stores t ws) :=
  ⟨by decide, by decide, set_in_bounds_iff ratOps ratCast 64 8 3 [3, 4, 5] 1 (by decide)
    (by decide)⟩

/-! ## Sequences of calls of `set` -/

/-- A call of `set` that completes leaves every cell at an index `≥ dim` of both query
buffers, and the three scratch buffers, as they were. -/
theorem set_frame {F T : Type} (ops : FloatOps F) (cast : T → F) (t t' : PQScratch F)
    (dim : Nat) (query : List T) (norm : F)
    (h : PQScratch.set ops cast t dim query norm = some t') :
    t'.aligned_query_float.length = t.aligned_query_float.length ∧
    t'.rotated_query.length = t.rotated_query.length ∧
    ∀ i, dim ≤ i →
      t'.aligned_query_float[i]? = t.aligned_query_float[i]? ∧
      t'.rotated_query[i]? = t.rotated_query[i]? := by
  rw [set_eq] at h
  split at h
  · rename_i hc
    obtain ⟨hq, ha, hr⟩ := hc
    injection h with h
    subst h
    refine ⟨(set_result_length ops cast t dim query norm hq).1 ha,
      (set_result_length ops cast t dim query norm hq).2 hr, ?_⟩
    intro i hi
    exact ⟨getElem?_unwritten _ query t.aligned_query_float dim i hi hq,
      getElem?_unwritten _ query t.rotated_query dim i hi hq⟩
  · exact absurd h (by simp)

/-- A sequence of calls of `set`, each with `dim ≤ d0` and a query of `dim` elements, on an
arena whose query buffers hold at least `d0` floats: all calls complete and the cells at
indices `≥ d0` are untouched. -/
theorem run_sets_frame {F T : Type} (ops : FloatOps F) (cast : T → F) (d0 : Nat)
    (calls : List (SetCall F T))
    (hcalls : ∀ c ∈ calls, c.dim ≤ d0 ∧ c.dim ≤ c.query.length) :
    ∀ s : PQScratch F, d0 ≤ s.aligned_query_float.length → d0 ≤ s.rotated_query.length →
      ∃ s', run_sets ops cast s calls = some s' ∧
        ∀ i, d0 ≤ i →
          s'.aligned_query_float[i]? = s.aligned_query_float[i]? ∧
          s'.rotated_query[i]? = s.rotated_query[i]? := by
  induction calls with
  | nil =>
    intro s _ _
    exact ⟨s, by simp [run_sets], fun i _ => ⟨rfl, rfl⟩⟩
  | cons c cs ih =>
    intro s ha hr
    have hc := hcalls c (List.mem_cons_self c cs)
    have hset : PQScratch.set ops cast s c.dim c.query c.norm
        = some (set_result ops cast s c.dim c.query c.norm) := by
      rw [set_eq, if_pos ⟨hc.2, by omega, by omega⟩]
    obtain ⟨hla, hlr, hfr⟩ := set_frame ops cast s _ c.dim c.query c.norm hset
    obtain ⟨s', hs', hfr'⟩ := ih (fun c' hc' => hcalls c' (List.mem_cons_of_mem c hc'))
      (set_result ops cast s c.dim c.query c.norm) (by omega) (by omega)
    refine ⟨s', ?_, ?_⟩
    · simp only [run_sets, List.foldlM_cons, hset]
      exact hs'
    · intro i hi
      have h1 := hfr' i hi
      have h2 := hfr i (by omega)
      exact ⟨h1.1.trans h2.1, h1.2.trans h2.2⟩

/-- C8 fails as stated: with `aligned_dim = 2 ^ 62 + 8` the query buffers hold eight floats,
so without any call of `set` (and `d0 = 0`) index 8, below `aligned_dim`, is outside
`rotated_query` and does not read as zero. -/
theorem zero_padding_counterexample :
    0 ≤ 2 ^ 62 + 8 ∧ 0 ≤ 8 ∧ 8 < 2 ^ 62 + 8 ∧
    ((new_PQScratch ratOps 64 (2 ^ 62 + 8)).bind
        (fun s => run_sets ratOps ratCast s [])).map (fun s => load s.rotated_query 8)
      = some none := by
  refine ⟨by decide, by decide, by decide, ?_⟩
  rw [new_PQScratch_eq]
  decide

/-- C8, amended: for every arena `PQScratch(graph_degree, aligned_dim)` whose byte size
`aligned_dim * 4` fits 64 bits, every `d0 ≤ aligned_dim` and every finite sequence of calls
of `set`, each with `dim ≤ d0` and a query of at least `dim` elements, the calls complete and
every index `i` with `d0 ≤ i < aligned_dim` of `aligned_query_float` and of `rotated_query`
still reads as zero; a call of `set` that completes leaves every cell at an index `≥ dim`
of both buffers as it was. -/
theorem zero_padding_preserved {F T : Type} (ops : FloatOps F) (cast : T → F)
    (graph_degree aligned_dim d0 : Nat) (calls : List (SetCall F T))
    (ha : aligned_dim * 4 < 2 ^ 64) (hd0 : d0 ≤ aligned_dim)
    (hcalls : ∀ c ∈ calls, c.dim ≤ d0 ∧ c.dim ≤ c.query.length) :
    (∃ s s', new_PQScratch ops graph_degree aligned_dim = some s ∧
      run_sets ops cast s calls = some s' ∧
      ∀ i, d0 ≤ i → i < aligned_dim →
        load s'.aligned_query_float i = some ops.zero ∧
        load s'.rotated_query i = some ops.zero) ∧
    (∀ (t t' : PQScratch F) (dim : Nat) (query : List T) (norm : F),
      PQScratch.set ops cast t dim query norm = some t' →
      ∀ i, dim ≤ i →
        t'.aligned_query_float[i]? = t.aligned_query_float[i]? ∧
        t'.rotated_query[i]? = t.rotated_query[i]?) := by
  constructor
  · have hnew := new_PQScratch_eq ops graph_degree aligned_dim
    rw [query_bytes_of_lt aligned_dim ha] at hnew
    obtain ⟨s', hs', hfr⟩ := run_sets_frame ops cast d0 calls hcalls
      (⟨List.replicate (pqtable_scratch_bytes / sizeof_float) none,
        List.replicate (dist_scratch_bytes graph_degree / sizeof_float) none,
        List.replicate (coord_scratch_bytes graph_degree / sizeof_u8) none,
        List.replicate aligned_dim (some ops.zero),
        List.replicate aligned_dim (some ops.zero)⟩ : PQScratch F)
      (by simpa using hd0) (by simpa using hd0)
    refine ⟨_, s', hnew, hs', ?_⟩
    intro i hi0 hi
    have h := hfr i hi0
    simp only [load, h.1, h.2]
    simp [List.getElem?_replicate, hi]
  · intro t t' dim query norm h
    exact (set_frame ops cast t t' dim query norm h).2.2

/-- Witness of the amended C8: an arena of eight floats, two calls with `dim ≤ 3`. -/
theorem zero_padding_preserved_witness :
    8 * 4 < 2 ^ 64 ∧ 3 ≤ 8 ∧
    ∃ s s', new_PQScratch ratOps 64 8 = some s ∧
      run_sets ratOps ratCast s [⟨3, [1, 2, 3], 2⟩, ⟨2, [9, 9], 1⟩] = some s' ∧
      ∀ i, 3 ≤ i → i < 8 →
        load s'.aligned_query_float i = some ratOps.zero ∧
        load s'.rotated_query i = some ratOps.zero :=
  ⟨by decide, by decide,
    (zero_padding_preserved ratOps ratCast 64 8 3 [⟨3, [1, 2, 3], 2⟩, ⟨2, [9, 9], 1⟩]
      (by decide) (by decide) (by decide)).1⟩

/-! ## Lookup kernels -/

theorem getElem?_store {α : Type} (buf b : Buffer α) (i : Nat) (v : α)
    (h : store buf i v = some b) :
    b.length = buf.length ∧ b[i]? = some (some v) ∧ ∀ p, p ≠ i → b[p]? = buf[p]? := by
  unfold store at h
  split at h
  · rename_i hi
    injection h with h
    subst h
    refine ⟨List.length_set _ _ _, ?_, ?_⟩
    · rw [List.getElem?_set_self hi]
    · intro p hp
      rw [List.getElem?_set_ne (Ne.symm hp)]
  · exact absurd h (by simp)

theorem copy_row_succ {α : Type} (dst : Buffer α) (doff : Nat) (src : List α) (soff n : Nat) :
    copy_row dst doff src soff (n + 1)
      = (copy_row dst doff src soff n).bind
          fun b => (src[soff + n]?).bind fun x => store b (doff + n) x := by
  simp [copy_row, List.range_succ, List.foldlM_append]

/-- A row copy inside both buffers completes, writes the row and nothing else. -/
theorem copy_row_spec {α : Type} (dst : Buffer α) (doff : Nat) (src : List α) (soff n : Nat)
    (hs : soff + n ≤ src.length) (hd : doff + n ≤ dst.length) :
    ∃ b, copy_row dst doff src soff n = some b ∧ b.length = dst.length ∧
      (∀ j, j < n → b[doff + j]? = (src[soff + j]?).map some) ∧
      (∀ p, p < doff ∨ doff + n ≤ p → b[p]? = dst[p]?) := by
  induction n with
  | zero => exact ⟨dst, by simp [copy_row], rfl, fun j hj => absurd hj (by omega), fun _ _ => rfl⟩
  | succ n ih =>
    obtain ⟨b, hb, hlen, hrow, hrest⟩ := ih (by omega) (by omega)
    have hx : src[soff + n]? = some src[soff + n] := List.getElem?_eq_getElem (by omega)
    have hst : store b (doff + n) src[soff + n]
        = some (b.set (doff + n) (some src[soff + n])) := store_eq_some _ _ _ (by omega)
    obtain ⟨hl2, hat, hne⟩ := getElem?_store _ _ _ _ hst
    refine ⟨_, ?_, hl2.trans hlen, ?_, ?_⟩
    · rw [copy_row_succ, hb, Option.some_bind, hx, Option.some_bind, hst]
    · intro j hj
      by_cases hjn : j = n
      · subst hjn
        rw [hat, hx]
        rfl
      · rw [hne _ (by omega)]
        exact hrow j (by omega)
    · intro p hp
      rw [hne _ (by omega)]
      exact hrest p (by omega)

theorem aggregate_coords_ptr_succ {B : Type} (ids : List Nat) (n : Nat) (all_coords : List B)
    (ndims : Nat) (out : Buffer B) :
    aggregate_coords_ptr ids (n + 1) all_coords ndims out
      = (aggregate_coords_ptr ids n all_coords ndims out).bind
          fun b => (ids[n]?).bind
            fun id => copy_row b (n * ndims) all_coords (id * ndims) ndims := by
  simp [aggregate_coords_ptr, List.range_succ, List.foldlM_append]

/-- The gather over the first `n_ids` ids completes when the rows exist and `out` has room;
row `i` of the result is row `ids[i]` of the matrix, the rest of `out` is untouched. -/
theorem aggregate_coords_ptr_spec {B : Type} (ids : List Nat) (n_ids : Nat)
    (all_coords : List B) (ndims : Nat) (out : Buffer B)
    (hn : n_ids ≤ ids.length)
    (hrows : ∀ id ∈ ids, id * ndims + ndims ≤ all_coords.length)
    (hout : n_ids * ndims ≤ out.length) :
    ∃ b, aggregate_coords_ptr ids n_ids all_coords ndims out = some b ∧
      b.length = out.length ∧
      (∀ i id j, i < n_ids → ids[i]? = some id → j < ndims →
        b[i * ndims + j]? = (all_coords[id * ndims + j]?).map some) ∧
      (∀ p, n_ids * ndims ≤ p → b[p]? = out[p]?) := by
  induction n_ids with
  | zero =>
    exact ⟨out, by simp [aggregate_coords_ptr], rfl,
      fun i _ _ hi => absurd hi (by omega), fun _ _ => rfl⟩
  | succ n ih =>
    have hmul : (n + 1) * ndims = n * ndims + ndims := Nat.succ_mul n ndims
    obtain ⟨b, hb, hlen, hrow, hrest⟩ := ih (by omega) (by omega)
    have hid : ids[n]? = some ids[n] := List.getElem?_eq_getElem (by omega)
    have hin : ids[n] ∈ ids := List.getElem_mem _
    obtain ⟨b', hb', hlen', hrow', hrest'⟩ :=
      copy_row_spec b (n * ndims) all_coords (ids[n] * ndims) ndims (hrows _ hin) (by omega)
    refine ⟨b', ?_, hlen'.trans hlen, ?_, ?_⟩
    · rw [aggregate_coords_ptr_succ, hb, Option.some_bind, hid, Option.some_bind, hb']
    · intro i id j hi hidi hj
      by_cases hin : i = n
      · subst hin
        rw [hid] at hidi
        injection hidi with hidi
        subst hidi
        exact hrow' j hj
      · have hlt : i + 1 ≤ n := by omega
        have h1 : (i + 1) * ndims ≤ n * ndims := Nat.mul_le_mul_right ndims hlt
        have h2 : (i + 1) * ndims = i * ndims + ndims := Nat.succ_mul i ndims
        rw [hrest' _ (Or.inl (by omega))]
        exact hrow i id j (by omega) hidi hj
    · intro p hp
      rw [hrest' p (Or.inr (by omega))]
      exact hrest p (by omega)

/-- C6: `aggregate_coords` gathers code rows in input order.  For every id list, row width
`ndims` and code matrix `all_coords` that contains every requested row, and every `out` with
room for `|ids| * ndims` bytes, the call completes (both overloads alike) and afterwards
`out[i * ndims + j]` equals `all_coords[ids[i] * ndims + j]` for every `i < |ids|` and
`j < ndims`; hence two positions holding the same id yield identical rows. -/
theorem aggregate_coords_gathers {B : Type} (ids : List Nat) (all_coords : List B)
    (ndims : Nat) (out : Buffer B)
    (hrows : ∀ id ∈ ids, id * ndims + ndims ≤ all_coords.length)
    (hout : ids.length * ndims ≤ out.length) :
    ∃ b, aggregate_coords ids all_coords ndims out = some b ∧
      aggregate_coords_ptr ids ids.length all_coords ndims out = some b ∧
      (∀ i id j, ids[i]? = some id → j < ndims →
        ∃ c, all_coords[id * ndims + j]? = some c ∧ load b (i * ndims + j) = some c) ∧
      (∀ i k j, i < ids.length → k < ids.length → ids[i]? = ids[k]? → j < ndims →
        load b (i * ndims + j) = load b (k * ndims + j)) := by
  obtain ⟨b, hb, _, hrow, _⟩ :=
    aggregate_coords_ptr_spec ids ids.length all_coords ndims out (le_refl _) hrows hout
  have hcell : ∀ i id j, ids[i]? = some id → j < ndims →
      ∃ c, all_coords[id * ndims + j]? = some c ∧ load b (i * ndims + j) = some c := by
    intro i id j hi hj
    have hilt : i < ids.length := by
      by_contra hge
      rw [List.getElem?_eq_none (by omega)] at hi
      exact absurd hi (by simp)
    have hmem : id ∈ ids := List.getElem?_mem hi
    have hlt : id * ndims + j < all_coords.length := by
      have := hrows id hmem
      omega
    refine ⟨all_coords[id * ndims + j], List.getElem?_eq_getElem hlt, ?_⟩
    rw [load, hrow i id j hilt hi hj, List.getElem?_eq_getElem hlt]
    rfl
  refine ⟨b, hb, hb, hcell, ?_⟩
  intro i k j hi hk hik hj
  have hidi : ids[i]? = some ids[i] := List.getElem?_eq_getElem hi
  obtain ⟨c, hc, hci⟩ := hcell i ids[i] j hidi hj
  obtain ⟨c', hc', hck⟩ := hcell k ids[i] j (hik ▸ hidi) hj
  rw [hci, hck]
  rw [hc] at hc'
  exact hc'

/-- Witness of C6: the scenario of the specification, ids `[5, 2, 2, 9]` over a matrix of
ten rows of width two; rows 5, 2, 2, 9 come out in that order. -/
theorem aggregate_coords_gathers_witness :
    (∀ id ∈ demo_ids, id * 2 + 2 ≤ demo_coords.length) ∧
    demo_ids.length * 2 ≤ demo_out.length ∧
    (∃ b, aggregate_coords demo_ids demo_coords 2 demo_out = some b ∧
      aggregate_coords_ptr demo_ids demo_ids.length demo_coords 2 demo_out = some b ∧
      (∀ i id j, demo_ids[i]? = some id → j < 2 →
        ∃ c, demo_coords[id * 2 + j]? = some c ∧ load b (i * 2 + j) = some c) ∧
      (∀ i k j, i < demo_ids.length → k < demo_ids.length → demo_ids[i]? = demo_ids[k]? →
        j < 2 → load b (i * 2 + j) = load b (k * 2 + j))) ∧
    aggregate_coords demo_ids demo_coords 2 demo_out
      = some [some 5, some 105, some 2, some 102, some 2, some 102, some 9, some 109] :=
  ⟨by decide, by decide,
    aggregate_coords_gathers demo_ids demo_coords 2 demo_out (by decide) (by decide),
    by decide⟩

/-- The reduction of one candidate completes when its codes and the table are in range, and
yields the sum named by the specification. -/
theorem pq_dist_candidate_eq {F : Type} (ops : FloatOps F) (pq_ids : List U8)
    (n_chunks : Nat) (pq_dists : List F) (i : Nat)
    (hids : i * n_chunks + n_chunks ≤ pq_ids.length)
    (htab : 256 * n_chunks ≤ pq_dists.length) :
    pq_dist_candidate ops pq_ids n_chunks pq_dists i
      = some (chunk_sum ops pq_ids n_chunks pq_dists i) := by
  have key : ∀ k, k ≤ n_chunks →
      (List.range k).foldlM
        (fun acc c => (pq_ids[i * n_chunks + c]?).bind fun code =>
          (pq_dists[256 * c + code.val]?).bind fun x => some (ops.add acc x)) ops.zero
      = some ((List.range k).foldl
          (fun acc c => ops.add acc
            (pq_dists.getD (256 * c + (pq_ids.getD (i * n_chunks + c) 0).val) ops.zero))
          ops.zero) := by
    intro k
    induction k with
    | zero => intro _; rfl
    | succ k ih =>
      intro hk
      have hc : i * n_chunks + k < pq_ids.length := by omega
      have hcode : pq_ids[i * n_chunks + k]? = some pq_ids[i * n_chunks + k] :=
        List.getElem?_eq_getElem hc
      have hb := (pq_ids[i * n_chunks + k]).isLt
      have ht : 256 * k + (pq_ids[i * n_chunks + k]).val < pq_dists.length := by omega
      have hx : pq_dists[256 * k + (pq_ids[i * n_chunks + k]).val]?
          = some pq_dists[256 * k + (pq_ids[i * n_chunks + k]).val] :=
        List.getElem?_eq_getElem ht
      rw [List.range_succ, List.foldlM_append, ih (by omega), List.foldl_append]
      simp only [Option.bind_eq_bind, Option.some_bind, List.foldlM_cons, List.foldlM_nil,
        List.foldl_cons, List.foldl_nil, hcode, hx, List.getD_eq_getElem?_getD, Option.getD_some]
      rfl
  exact key n_chunks (le_refl _)

theorem pq_dist_lookup_ptr_succ {F : Type} (ops : FloatOps F) (pq_ids : List U8)
    (n n_chunks : Nat) (pq_dists : List F) (out : Buffer F) :
    pq_dist_lookup_ptr ops pq_ids (n + 1) n_chunks pq_dists out
      = (pq_dist_lookup_ptr ops pq_ids n n_chunks pq_dists out).bind
          fun b => (pq_dist_candidate ops pq_ids n_chunks pq_dists n).bind
            fun x => store b n x := by
  simp [pq_dist_lookup_ptr, List.range_succ, List.foldlM_append]

theorem mapM_eq_some_map {α β : Type} (f : α → Option β) (g : α → β) (l : List α)
    (h : ∀ x ∈ l, f x = some (g x)) : l.mapM f = some (l.map g) := by
  induction l with
  | nil => rfl
  | cons a t ih =>
    rw [List.mapM_cons, h a (List.mem_cons_self a t),
      ih (fun x hx => h x (List.mem_cons_of_mem a hx))]
    rfl

/-- C5: `pq_dist_lookup` sums, for each candidate, the table entries selected by its codes.
For every `n_pts`, `n_chunks`, code matrix `pq_ids` with `n_pts` rows of `n_chunks` bytes
and table `pq_dists` with `256 * n_chunks` entries, both overloads complete (the pointer
overload on any output with room for `n_pts` floats), `dists_out[i]` is the sum over the
chunks `c < n_chunks` of `pq_dists[256 * c + pq_ids[i * n_chunks + c]]` for every `i < n_pts`,
and the two overloads produce the same values. -/
theorem pq_dist_lookup_sums {F : Type} (ops : FloatOps F) (pq_ids : List U8)
    (n_pts n_chunks : Nat) (pq_dists : List F) (out_ptr : Buffer F) (out_vec : List F)
    (hids : n_pts * n_chunks ≤ pq_ids.length)
    (htab : 256 * n_chunks ≤ pq_dists.length)
    (hout : n_pts ≤ out_ptr.length) :
    ∃ (b : Buffer F) (v : List F),
      pq_dist_lookup_ptr ops pq_ids n_pts n_chunks pq_dists out_ptr = some b ∧
      pq_dist_lookup ops pq_ids n_pts n_chunks pq_dists out_vec = some v ∧
      v.length = n_pts ∧
      (∀ i, i < n_pts →
        load b i = some (chunk_sum ops pq_ids n_chunks pq_dists i) ∧
        v[i]? = some (chunk_sum ops pq_ids n_chunks pq_dists i)) ∧
      (∀ i, i < n_pts → load b i = v[i]?) := by
  have hcand : ∀ i, i < n_pts → pq_dist_candidate ops pq_ids n_chunks pq_dists i
      = some (chunk_sum ops pq_ids n_chunks pq_dists i) := by
    intro i hi
    have h1 : (i + 1) * n_chunks ≤ n_pts * n_chunks := Nat.mul_le_mul_right n_chunks hi
    have h2 : (i + 1) * n_chunks = i * n_chunks + n_chunks := Nat.succ_mul i n_chunks
    exact pq_dist_candidate_eq ops pq_ids n_chunks pq_dists i (by omega) htab
  have hptr : ∀ n, n ≤ n_pts →
      ∃ b, pq_dist_lookup_ptr ops pq_ids n n_chunks pq_dists out_ptr = some b ∧
        b.length = out_ptr.length ∧
        ∀ i, i < n → b[i]? = some (some (chunk_sum ops pq_ids n_chunks pq_dists i)) := by
    intro n
    induction n with
    | zero =>
      intro _
      exact ⟨out_ptr, by simp [pq_dist_lookup_ptr], rfl, fun i hi => absurd hi (by omega)⟩
    | succ n ih =>
      intro hn
      obtain ⟨b, hb, hlen, hval⟩ := ih (by omega)
      have hst : store b n (chunk_sum ops pq_ids n_chunks pq_dists n)
          = some (b.set n (some (chunk_sum ops pq_ids n_chunks pq_dists n))) :=
        store_eq_some _ _ _ (by omega)
      obtain ⟨hl2, hat, hne⟩ := getElem?_store _ _ _ _ hst
      refine ⟨_, ?_, hl2.trans hlen, ?_⟩
      · rw [pq_dist_lookup_ptr_succ, hb, Option.some_bind, hcand n (by omega),
          Option.some_bind, hst]
      · intro i hi
        by_cases hin : i = n
        · subst hin
          exact hat
        · rw [hne i hin]
          exact hval i (by omega)
  obtain ⟨b, hb, _, hval⟩ := hptr n_pts (le_refl _)
  have hvec : pq_dist_lookup ops pq_ids n_pts n_chunks pq_dists out_vec
      = some ((List.range n_pts).map (chunk_sum ops pq_ids n_chunks pq_dists)) :=
    mapM_eq_some_map _ _ _ (fun i hi => hcand i (List.mem_range.1 hi))
  have hget : ∀ i, i < n_pts →
      ((List.range n_pts).map (chunk_sum ops pq_ids n_chunks pq_dists))[i]?
        = some (chunk_sum ops pq_ids n_chunks pq_dists i) := by
    intro i hi
    rw [List.getElem?_map, List.getElem?_range hi]
    rfl
  refine ⟨b, _, hb, hvec, by simp, ?_, ?_⟩
  · intro i hi
    refine ⟨?_, hget i hi⟩
    rw [load, hval i hi]
    rfl
  · intro i hi
    rw [load, hval i hi, hget i hi]
    rfl

/-- Witness of C5: two candidates with codes `[1, 0]` and `[0, 2]` over two chunks. -/
theorem pq_dist_lookup_sums_witness :
    2 * 2 ≤ demo_codes.length ∧ 256 * 2 ≤ demo_table.length ∧
    2 ≤ ([none, none, none] : Buffer ℚ).length ∧
    ∃ (b : Buffer ℚ) (v : List ℚ),
      pq_dist_lookup_ptr ratOps demo_codes 2 2 demo_table [none, none, none] = some b ∧
      pq_dist_lookup ratOps demo_codes 2 2 demo_table [] = some v ∧
      v.length = 2 ∧
      (∀ i, i < 2 →
        load b i = some (chunk_sum ratOps demo_codes 2 demo_table i) ∧
        v[i]? = some (chunk_sum ratOps demo_codes 2 demo_table i)) ∧
      (∀ i, i < 2 → load b i = v[i]?) :=
  ⟨by decide, by simp [demo_table], by decide,
    pq_dist_lookup_sums ratOps demo_codes 2 2 demo_table [none, none, none] []
      (by decide) (by simp [demo_table]) (by decide)⟩

end diskann
